import Mathlib

/-!
Verification of the CyberFeedBites feed acquisition and filtering pipeline
(`src/rss_reader.py`, `src/utils.py`, `src/config.py`) against its
natural-language specification.

Text values (Python `str`) are embedded as `List Char`; byte strings
(Python `bytes`) as `List Nat` with each element below 256; Unicode code
points as `List Nat`.  Datetimes are embedded as integers (timestamps with
the usual order); `feedparser` entry dictionaries become structures whose
fields carry the values the code reads out of them.
-/

namespace CyberFeedBites

/-! ## Generic list/string helpers used by the embedding -/

/-- Boolean test that `p` is an initial segment of `s`. -/
def listStarts : List Char → List Char → Bool
  | [], _ => true
  | _ :: _, [] => false
  | p :: ps, c :: cs => (p == c) && listStarts ps cs

/-- Boolean substring test, embedding the Python expression `p in s` on
strings (true for the empty pattern, as in Python). -/
def listContains (p : List Char) : List Char → Bool
  | [] => listStarts p []
  | c :: cs => listStarts p (c :: cs) || listContains p cs

/-- Embedding of Python `str.lower` (the texts handled by the classifier
are ASCII, where `Char.toLower` agrees with Python). -/
def lowerStr (s : List Char) : List Char := s.map Char.toLower

/-! ## Constants from `src/config.py` -/

def MAX_LENGTH_DESCRIPTION : Nat := 200
def MAX_LENGTH_FEED_URL : Nat := 200
def MAX_LENGTH_TITLE : Nat := 100
def MAX_LENGTH_LINK : Nat := 200
def MAX_LENGTH_CHANNEL_IMAGE : Nat := 200
def MAX_LENGTH_SKIPPED_REASON : Nat := 500
def MAX_CONCURRENT_TASKS : Nat := 15
def CACHE_MAX_AGE_SECONDS : Int := 600
def HTTP_REQUEST_TIMEOUT : Nat := 10

/-- `KEYWORD_EXCEPTIONS` from `src/config.py`. -/
def KEYWORD_EXCEPTIONS : List (List Char × List (List Char)) :=
  [("sponsored".toList, ["state-sponsored".toList])]

/-- `EXCLUDE_KEYWORDS` from `src/config.py` (the keyword list, before the
later redefinition of the name as a boolean CLI default). -/
def EXCLUDE_KEYWORDS_LIST : List (List Char) :=
  ["sponsored".toList, "advertisement".toList, "giveaway".toList,
   "clickbait".toList, "advertorial".toList, "paid content".toList]

/-- `CYBERSECURITY_KEYWORDS` from `src/config.py`. -/
def CYBERSECURITY_KEYWORDS : List (List Char) := ["security".toList]

/-! ## The classifier (`src/rss_reader.py`) -/

/-- The keyword loop of `matches_exclude_keywords` (rss_reader.py
156-163), walking the exclude keywords in order over the lowercased
text. -/
def matchesExcludeLoop (exceptions : List (List Char × List (List Char)))
    (textLower : List Char) : List (List Char) → Option (List Char)
  | [] => none
  | kw :: rest =>
    if listContains kw textLower then
      if ((List.lookup kw exceptions).getD []).any
          (fun exc => listContains exc textLower) then
        matchesExcludeLoop exceptions textLower rest
      else
        some kw
    else
      matchesExcludeLoop exceptions textLower rest

/-- Embedding of `matches_exclude_keywords` (rss_reader.py 144-163):
the first exclude keyword that occurs in the lowercased text and has no
exception phrase also occurring in the text is returned; a keyword vetoed
by one of its exception phrases is skipped. -/
def matches_exclude_keywords (text : List Char) (exclude_keywords : List (List Char))
    (exceptions : List (List Char × List (List Char))) : Option (List Char) :=
  matchesExcludeLoop exceptions (lowerStr text) exclude_keywords

/-- Embedding of `matches_aggressive_keywords` (rss_reader.py 119-142):
true when the aggressive keyword list is empty; otherwise true exactly
when some lowercased keyword occurs in some lowercased tag term or in the
lowercased combined text. -/
def matches_aggressive_keywords (tags : List (List Char)) (combined_text : List Char)
    (aggressive_keywords : List (List Char)) : Bool :=
  if aggressive_keywords = [] then
    true
  else
    let kws := aggressive_keywords.map lowerStr
    if tags.any (fun tag => kws.any (fun kw => listContains kw (lowerStr tag))) then
      true
    else if kws.any (fun kw => listContains kw (lowerStr combined_text)) then
      true
    else
      false

/-! ## Utilities from `src/utils.py` -/

/-- Python whitespace stripped by `str.strip` (ASCII part). -/
def isPySpace (c : Char) : Bool :=
  c = ' ' || c = '\t' || c = '\n' || c = '\r' || c.toNat = 11 || c.toNat = 12

/-- Embedding of Python `str.strip()`. -/
def pyStrip (s : List Char) : List Char :=
  ((s.dropWhile isPySpace).reverse.dropWhile isPySpace).reverse

/-- Everything before the last space of `s`, embedding the Python
expression `s.rsplit(' ', 1)[0]` for a string known to contain a space. -/
def beforeLastSpace (s : List Char) : List Char :=
  ((s.reverse.dropWhile (fun c => c ≠ ' ')).drop 1).reverse

/-- Embedding of `truncate_string` (utils.py 59-68): texts longer than
`max_length` are cut to `max_length` characters, trimmed back to the last
space boundary when one exists, and suffixed with an ellipsis. -/
def truncate_string (text : List Char) (max_length : Nat) : List Char :=
  if text.length > max_length then
    let cut := text.take max_length
    (if cut.any (fun c => c = ' ') then beforeLastSpace cut else cut) ++ "...".toList
  else text

/-- Embedding of `truncate_description` (utils.py 86-92). -/
def truncate_description (plain : List Char) (max_length : Nat) : List Char :=
  if plain = [] then [] else truncate_string plain max_length

/-- A parsed feed entry, carrying the fields `process_feed_entries` and the
classifier read from the feedparser entry dictionary.  Parsed date tuples
are embedded as integer timestamps; `tags` carries each tag dictionary's
`term` string. -/
structure Entry where
  published_parsed : Option Int := none
  updated_parsed : Option Int := none
  title : List Char := []
  link : List Char := []
  category : List Char := []
  description : Option (List Char) := none
  summary : Option (List Char) := none
  content_value : Option (List Char) := none
  tags : List (List Char) := []
deriving DecidableEq

/-- Embedding of `get_published_date` (utils.py 36-45): the published or
updated parsed date, as a UTC timestamp; `now` stands for
`datetime.now(timezone.utc)` when the fallback is requested. -/
def get_published_date (e : Entry) (fallback_to_now : Bool) (now : Int) : Option Int :=
  match e.published_parsed.orElse (fun _ => e.updated_parsed) with
  | some p => some p
  | none => if fallback_to_now then some now else none

/-- First non-empty value of an option chain, embedding Python truthiness
of the `if not description` checks in `get_description`. -/
def firstNonEmpty (xs : List (Option (List Char))) : Option (List Char) :=
  match xs with
  | [] => none
  | x :: rest =>
    match x with
    | some v => if v = [] then firstNonEmpty rest else some v
    | none => firstNonEmpty rest

/-- Embedding of `get_description` (utils.py 70-84): the first non-empty
of description / summary / content value, stripped and with newlines
replaced by spaces.  The BeautifulSoup HTML-to-text step
(`html_to_plain_text`) is an external library call and is embedded as the
identity on the text; none of the claims settled here depend on HTML
stripping. -/
def get_description (e : Entry) : List Char :=
  match firstNonEmpty [e.description, e.summary, e.content_value] with
  | none => []
  | some d => (pyStrip d).map (fun c => if c = '\n' then ' ' else c)

/-- An article record as built by `process_feed_entries` and cleaned by
`clean_articles`; `skipped_reason` is present exactly when the dictionary
carries the `skipped_reason` key. -/
structure Article where
  feed_url : List Char := []
  title : List Char := []
  link : List Char := []
  description : List Char := []
  published_date : Int := 0
  channel_image : Option (List Char) := none
  skipped_reason : Option (List Char) := none
  feed_title : List Char := []
deriving DecidableEq

/-- Embedding of the per-article body of `clean_articles` (utils.py
94-119): every textual field is stripped and truncated to its configured
bound, the published date is kept unmodified, and the skipped reason is
kept (stripped and truncated) exactly when present.  `clean_articles`
does not carry a feed title field; it is set later by
`process_feed_async`. -/
def cleanArticle (max_length_description : Nat) (a : Article) : Article :=
  { title := truncate_string (pyStrip a.title) MAX_LENGTH_TITLE
    link := truncate_string (pyStrip a.link) MAX_LENGTH_LINK
    description := truncate_description (pyStrip a.description) max_length_description
    feed_url := truncate_string (pyStrip a.feed_url) MAX_LENGTH_FEED_URL
    channel_image := some (truncate_string (pyStrip (a.channel_image.getD [])) MAX_LENGTH_CHANNEL_IMAGE)
    published_date := a.published_date
    skipped_reason := a.skipped_reason.map
      (fun r => truncate_string (pyStrip r) MAX_LENGTH_SKIPPED_REASON)
    feed_title := [] }

/-- Embedding of `clean_articles` (utils.py 94-119). -/
def clean_articles (articles : List Article) (max_length_description : Nat) : List Article :=
  articles.map (cleanArticle max_length_description)

/-! ## `process_feed_entries` (rss_reader.py 165-215) -/

/-- The channel-level data `process_feed_entries` reads from the parsed
feed: the channel `updated_parsed` timestamp, the resolved channel image
(the `image`/`icon`/`logo` chain of rss_reader.py 172-177, each already
resolved to its `href`/`url` string), and the entry list. -/
structure Feed where
  feed_updated_parsed : Option Int := none
  image : Option (List Char) := none
  icon : Option (List Char) := none
  logo : Option (List Char) := none
  entries : List Entry := []
deriving DecidableEq

/-- The channel image resolution of rss_reader.py 172-177. -/
def channelImage (f : Feed) : Option (List Char) :=
  (f.image.orElse (fun _ => f.icon)).orElse (fun _ => f.logo)

/-- The skipped reason written when the aggressive-keyword check fails
(rss_reader.py 204). -/
def SKIPPED_NOT_CYBER : List Char := "Not cybersecurity keyword found:".toList

/-- The skipped reason written when an exclude keyword matches
(rss_reader.py 207). -/
def skippedMatchedReason (kw : List Char) : List Char :=
  "Matched keyword: ".toList ++ kw

/-- The combined text built at rss_reader.py 189:
`(title + " " + category + " " + full_text_description).lower()`. -/
def combinedText (e : Entry) : List Char :=
  lowerStr (e.title ++ " ".toList ++ e.category ++ " ".toList ++ get_description e)

/-- The per-entry body of the loop of `process_feed_entries`
(rss_reader.py 182-210): entries without a parsable published date inside
`[start_date, end_date]` yield nothing; every other entry yields exactly
one article record, carrying a skipped reason when the aggressive check
fails or an exclude keyword matches. -/
def classify_entry (feed_url : List Char) (channel_image : Option (List Char))
    (start_date end_date : Int) (exclude_keywords aggressive_keywords : List (List Char))
    (e : Entry) : Option Article :=
  match get_published_date e false 0 with
  | none => none
  | some published_date =>
    if start_date ≤ published_date ∧ published_date ≤ end_date then
      let combined := combinedText e
      let matched_keyword := matches_exclude_keywords combined exclude_keywords KEYWORD_EXCEPTIONS
      let aggressive_keyword := matches_aggressive_keywords e.tags combined aggressive_keywords
      let article_data : Article :=
        { feed_url := feed_url
          title := e.title
          link := e.link
          description := get_description e
          published_date := published_date
          channel_image := channel_image }
      some (if aggressive_keyword = false then
              { article_data with skipped_reason := some SKIPPED_NOT_CYBER }
            else
              match matched_keyword with
              | some kw => { article_data with skipped_reason := some (skippedMatchedReason kw) }
              | none => article_data)
    else none

/-- Splits the classified articles into the `recent_articles` and
`skipped_articles` lists in order, following the two `append` branches of
the loop. -/
def splitPlaced : List Article → List Article × List Article
  | [] => ([], [])
  | a :: rest =>
    if a.skipped_reason = none then
      (a :: (splitPlaced rest).1, (splitPlaced rest).2)
    else
      ((splitPlaced rest).1, a :: (splitPlaced rest).2)

/-- The body of `process_feed_entries` after the channel-date gate. -/
def process_feed_entries_core (feed : Feed) (feed_url : List Char)
    (start_date end_date : Int) (exclude_keywords aggressive_keywords : List (List Char))
    (max_length_description : Nat) : List Article × List Article :=
  let placed := feed.entries.filterMap
    (classify_entry feed_url (channelImage feed) start_date end_date
      exclude_keywords aggressive_keywords)
  (clean_articles (splitPlaced placed).1 max_length_description,
   clean_articles (splitPlaced placed).2 max_length_description)

/-- Embedding of `process_feed_entries` (rss_reader.py 165-215): when the
channel carries an `updated_parsed` timestamp strictly earlier than
`start_date` the whole feed yields two empty lists; otherwise each entry
is classified and the two per-feed lists are cleaned. -/
def process_feed_entries (feed : Feed) (feed_url : List Char)
    (start_date end_date : Int) (exclude_keywords aggressive_keywords : List (List Char))
    (max_length_description : Nat) : List Article × List Article :=
  match feed.feed_updated_parsed with
  | some channel_updated_date =>
    if channel_updated_date < start_date then ([], [])
    else process_feed_entries_core feed feed_url start_date end_date
      exclude_keywords aggressive_keywords max_length_description
  | none => process_feed_entries_core feed feed_url start_date end_date
      exclude_keywords aggressive_keywords max_length_description

/-- An entry reaches the classification step exactly when its published
date parses and lies inside the configured range. -/
def isCandidate (start_date end_date : Int) (e : Entry) : Bool :=
  match get_published_date e false 0 with
  | some p => decide (start_date ≤ p ∧ p ≤ end_date)
  | none => false

/-! ## The content repairer `clean_feed_content` (rss_reader.py 99-117) -/

/-- Decoder state of the streaming UTF-8 decoder: either between
sequences, or inside one with `acc` the code point bits read so far and
`[lo, hi]` the admissible range of the next byte (the first continuation
byte of a sequence has a restricted range that excludes overlong forms,
UTF-16 surrogates and code points above U+10FFFF, exactly the sequences
Python's strict UTF-8 codec rejects). -/
inductive Utf8State where
  | start : Utf8State
  | need1 (acc lo hi : Nat) : Utf8State
  | need2 (acc lo hi : Nat) : Utf8State
  | need3 (acc lo hi : Nat) : Utf8State
deriving DecidableEq

/-- Classify a byte seen between sequences: ASCII is emitted, a lead byte
opens a sequence with the admissible range of its first continuation
byte, anything else (stray continuation bytes, 0xC0/0xC1, bytes above
0xF4) is dropped, as `errors="ignore"` does. -/
def utf8Dispatch (b : Nat) : Utf8State × List Nat :=
  if b < 0x80 then (.start, [b])
  else if 0xC2 ≤ b ∧ b ≤ 0xDF then (.need1 (b - 0xC0) 0x80 0xBF, [])
  else if b = 0xE0 then (.need2 0 0xA0 0xBF, [])
  else if b = 0xED then (.need2 13 0x80 0x9F, [])
  else if 0xE1 ≤ b ∧ b ≤ 0xEF then (.need2 (b - 0xE0) 0x80 0xBF, [])
  else if b = 0xF0 then (.need3 0 0x90 0xBF, [])
  else if b = 0xF4 then (.need3 4 0x80 0x8F, [])
  else if 0xF1 ≤ b ∧ b ≤ 0xF3 then (.need3 (b - 0xF0) 0x80 0xBF, [])
  else (.start, [])

/-- Feed one byte to the decoder.  A byte outside the admissible range of
the current sequence aborts it (the partial sequence is dropped) and the
byte is reconsidered as a sequence start, matching CPython's
maximal-subpart skipping for `errors="ignore"`. -/
def utf8Feed (st : Utf8State) (b : Nat) : Utf8State × List Nat :=
  match st with
  | .start => utf8Dispatch b
  | .need1 acc lo hi =>
    if lo ≤ b ∧ b ≤ hi then (.start, [acc * 64 + (b - 0x80)])
    else utf8Dispatch b
  | .need2 acc lo hi =>
    if lo ≤ b ∧ b ≤ hi then (.need1 (acc * 64 + (b - 0x80)) 0x80 0xBF, [])
    else utf8Dispatch b
  | .need3 acc lo hi =>
    if lo ≤ b ∧ b ≤ hi then (.need2 (acc * 64 + (b - 0x80)) 0x80 0xBF, [])
    else utf8Dispatch b

/-- Run the decoder over a byte list; a sequence left unfinished at end of
input is dropped, as `errors="ignore"` does. -/
def utf8Run (st : Utf8State) : List Nat → List Nat
  | [] => []
  | b :: rest => (utf8Feed st b).2 ++ utf8Run (utf8Feed st b).1 rest

/-- Embedding of `content.decode("utf-8", errors="ignore")`
(rss_reader.py 100) to a code point sequence. -/
def utf8DecodeIgnore (bs : List Nat) : List Nat := utf8Run .start bs

/-- UTF-8 encoding of one Unicode scalar value. -/
def utf8EncodeChar (c : Nat) : List Nat :=
  if c < 0x80 then [c]
  else if c < 0x800 then [0xC0 + c / 64, 0x80 + c % 64]
  else if c < 0x10000 then [0xE0 + c / 4096, 0x80 + c / 64 % 64, 0x80 + c % 64]
  else [0xF0 + c / 262144, 0x80 + c / 4096 % 64, 0x80 + c / 64 % 64, 0x80 + c % 64]

/-- Embedding of `text.encode("utf-8")` (rss_reader.py 117). -/
def utf8Encode (s : List Nat) : List Nat := (s.map utf8EncodeChar).flatten

/-- `text.replace("\t", " ")` (rss_reader.py 103). -/
def tabFix (s : List Nat) : List Nat := s.map (fun c => if c = 9 then 32 else c)

/-- The ASCII control characters removed at rss_reader.py 106 (newline 10
and carriage return 13 are kept). -/
def isCtrlChar (c : Nat) : Bool :=
  c ≤ 8 || c = 11 || c = 12 || (14 ≤ c && c ≤ 31)

/-- `re.sub` removal of ASCII control characters (rss_reader.py 106). -/
def ctrlStrip (s : List Nat) : List Nat := s.filter (fun c => !isCtrlChar c)

/-- The code points removed at rss_reader.py 109: the two non-characters
U+FFFE/U+FFFF and the UTF-16 surrogate range. -/
def isIllegalXml (c : Nat) : Bool :=
  c = 0xFFFE || c = 0xFFFF || (0xD800 ≤ c && c ≤ 0xDFFF)

/-- `re.sub` removal of code points illegal in XML 1.0 (rss_reader.py 109). -/
def illegalStrip (s : List Nat) : List Nat := s.filter (fun c => !isIllegalXml c)

/-- Boolean test that the code point pattern `p` starts `s`. -/
def byteStarts : List Nat → List Nat → Bool
  | [], _ => true
  | _ :: _, [] => false
  | p :: ps, c :: cs => (p == c) && byteStarts ps cs

/-- The lookahead of the regex at rss_reader.py 112: the text continues
with one of the recognized entity tails `amp;`, `lt;`, `gt;`, `apos;`,
`quot;`. -/
def entityAt (s : List Nat) : Bool :=
  byteStarts [97, 109, 112, 59] s || byteStarts [108, 116, 59] s ||
    byteStarts [103, 116, 59] s || byteStarts [97, 112, 111, 115, 59] s ||
    byteStarts [113, 117, 111, 116, 59] s

/-- `re.sub` rewriting of every `&` not followed by a recognized entity
into `&amp;` (rss_reader.py 112); as in `re.sub`, the replacement text is
emitted without rescanning and scanning resumes after the matched
ampersand. -/
def ampFix : List Nat → List Nat
  | [] => []
  | c :: rest =>
    if c = 38 then
      if entityAt rest then 38 :: ampFix rest
      else 38 :: 97 :: 109 :: 112 :: 59 :: ampFix rest
    else c :: ampFix rest

/-- `text.replace("\r\n", "\n")` (rss_reader.py 115), scanning left to
right without overlap. -/
def crlf1 : List Nat → List Nat
  | [] => []
  | [c] => [c]
  | c :: d :: rest =>
    if c = 13 ∧ d = 10 then 10 :: crlf1 rest else c :: crlf1 (d :: rest)

/-- `text.replace("\r", "\n")` (rss_reader.py 115). -/
def crlf2 (s : List Nat) : List Nat := s.map (fun c => if c = 13 then 10 else c)

/-- Embedding of `clean_feed_content` (rss_reader.py 99-117): UTF-8 decode
dropping invalid input, tab replacement, control-character strip, illegal
code point strip, bare-ampersand rewriting, line-ending normalization and
UTF-8 re-encoding. -/
def clean_feed_content (content : List Nat) : List Nat :=
  utf8Encode (crlf2 (crlf1 (ampFix (illegalStrip (ctrlStrip (tabFix
    (utf8DecodeIgnore content)))))))

/-! ## Fetch paths, the scheduler and the spec-modelled retriever -/

/-- The bytes handed to `feedparser.parse` by `fetch_articles_async`
(rss_reader.py 232-236): the response body is passed through
`clean_feed_content` unconditionally, before the single parse attempt of
that path. -/
def fetch_articles_async_parse_input (content : List Nat) : List Nat :=
  clean_feed_content content

/-- The bytes describing the document handed to the last
`feedparser.parse` reached by `try_parse_feed` inside
`fetch_articles_sync_fallback` (rss_reader.py 256-266): the feed is
parsed as retrieved first, and only when that parse signals malformed
input (`feed.bozo`, abstracted by the predicate `bozo` on the raw bytes)
are the re-fetched bytes cleaned and parsed again. -/
def try_parse_feed_parse_input (bozo : List Nat → Bool) (raw : List Nat) : List Nat :=
  if bozo raw then clean_feed_content raw else raw

/-- Stamping the feed title and url onto an article, as the two loops of
`process_feed_async` do (rss_reader.py 309-315). -/
def set_feed_fields (feedtitle feed_url : List Char) (a : Article) : Article :=
  { a with feed_title := feedtitle, feed_url := feed_url }

/-- Embedding of `process_feed_async` (rss_reader.py 297-326): on success
the feed title and url are stamped onto every article and no error is
produced; an exception of any kind is caught and converted into a single
`(feedtitle, feed_url, cause)` triple with two empty article lists (the
dedicated ConnectionResetError branch has the same shape).  The awaited
fetch outcome is the `result` argument, an exception being represented by
its message. -/
def process_feed_async (feedtitle feed_url : List Char)
    (result : Except (List Char) (List Article × List Article)) :
    List Article × List Article × Option (List Char × List Char × List Char) :=
  match result with
  | .ok (recent, skipped) =>
    (recent.map (set_feed_fields feedtitle feed_url),
     skipped.map (set_feed_fields feedtitle feed_url), none)
  | .error e => ([], [], some (feedtitle, feed_url, e))

deriving instance DecidableEq for Except

/-- One scheduled feed: its title, url and fetch outcome. -/
structure FeedTask where
  feedtitle : List Char
  feed_url : List Char
  result : Except (List Char) (List Article × List Article)
deriving DecidableEq

/-- The aggregation loop of `process_all_feeds` (rss_reader.py 339-347):
article lists are concatenated in task order and non-`None` errors are
collected. -/
def collectResults :
    List (List Article × List Article × Option (List Char × List Char × List Char)) →
    List Article × List Article × List (List Char × List Char × List Char)
  | [] => ([], [], [])
  | (recent, skipped, err) :: rest =>
    (recent ++ (collectResults rest).1,
     skipped ++ (collectResults rest).2.1,
     match err with
     | some e => e :: (collectResults rest).2.2
     | none => (collectResults rest).2.2)

/-- Embedding of `process_all_feeds` (rss_reader.py 328-349): one task per
feed (`asyncio.gather` keeps results in task order), each run through
`process_feed_async`, then aggregated into the accepted list, the skipped
list and the error list. -/
def process_all_feeds (tasks : List FeedTask) :
    List Article × List Article × List (List Char × List Char × List Char) :=
  collectResults (tasks.map (fun t => process_feed_async t.feedtitle t.feed_url t.result))

/-- A cache entry of the on-disk response cache: the last good body and
its fetch time. -/
structure CacheEntry where
  body : List Nat
  fetchedAt : Int
deriving DecidableEq

/-- The cache-relevant options of a run. -/
structure RetrieverOptions where
  ignoreCache : Bool
  noConditionalCache : Bool
deriving DecidableEq

/-- Freshness test of a cache entry (spec section 4.1). -/
def isFresh (e : CacheEntry) (now maxAge : Int) : Bool := now - e.fetchedAt < maxAge

/-- Outcome of the single HTTP attempt of a fetch. -/
inductive TransportResult where
  | success (body : List Nat) : TransportResult
  | notModified : TransportResult
  | exc : TransportResult
deriving DecidableEq

/-- Modelled from the spec: the cache-aware retriever `fetch` of the
repository's current rss_reader is not under src/ (main.py imports a
FeedOptions-based `process_rss_feed` with `ignore_cache` and
`no_conditional_cache` options, and config.py declares `CACHE_FOLDER` and
`CACHE_MAX_AGE_SECONDS`, but the src snapshot's `fetch_articles_async`
has no cache); the algorithm follows spec section 4.2: cheap path on a
fresh entry under non-conditional caching, otherwise one network attempt,
with HTTP 304 and any transport exception answered from the cache when an
entry exists, and a retrieval error only when no entry exists. -/
def fetch (opts : RetrieverOptions) (cache : Option CacheEntry) (now maxAge : Int)
    (transport : TransportResult) : Except Unit (List Nat × Bool) :=
  match cache with
  | some e =>
    if ¬opts.ignoreCache ∧ opts.noConditionalCache ∧ isFresh e now maxAge then
      .ok (e.body, true)
    else
      match transport with
      | .success body => .ok (body, false)
      | .notModified => .ok (e.body, true)
      | .exc => .ok (e.body, true)
  | none =>
    match transport with
    | .success body => .ok (body, false)
    | .notModified => .error ()
    | .exc => .error ()

/-- Modelled from the spec: the default concurrency ceiling of a run is
`MAX_CONCURRENT_TASKS` from src/config.py (the wiring that passes it to
the scheduler lives in the newer rss_reader missing from src/, where
`process_all_feeds` is never called with an explicit bound). -/
def default_max_concurrent : Nat := MAX_CONCURRENT_TASKS

/-- Scheduler state: how many tasks are still waiting for the semaphore,
running inside it, and finished. -/
structure SchedState where
  waiting : Nat
  running : Nat
  finished : Nat
deriving DecidableEq

/-- Modelled from the spec: the semaphore-bounded scheduler of
`process_all_feeds` (rss_reader.py 329-337).  A step either lets a
waiting task acquire the semaphore - only when fewer than `n` tasks hold
it - or lets a running task finish and release it. -/
inductive SchedStep (n : Nat) : SchedState → SchedState → Prop where
  | acquire (s : SchedState) (hw : 0 < s.waiting) (hr : s.running < n) :
      SchedStep n s ⟨s.waiting - 1, s.running + 1, s.finished⟩
  | release (s : SchedState) (hr : 0 < s.running) :
      SchedStep n s ⟨s.waiting, s.running - 1, s.finished + 1⟩

/-- States reachable by a run over `total` feeds under ceiling `n`. -/
inductive SchedReach (n total : Nat) : SchedState → Prop where
  | init : SchedReach n total ⟨total, 0, 0⟩
  | step (s t : SchedState) (hs : SchedReach n total s) (hstep : SchedStep n s t) :
      SchedReach n total t

/-! ## Concrete inputs used by the witness theorems -/

/-- A feed with one entry inside the range `[0, 10]` and one outside. -/
def feedW : Feed :=
  { entries := [{ published_parsed := some 5, title := "Alpha".toList },
                { published_parsed := some 50 }] }

/-- The cleaned accepted article `process_feed_entries` produces from
`feedW` on the range `[0, 10]`. -/
def articleW : Article :=
  { title := "Alpha".toList, channel_image := some [], published_date := 5 }

/-- An in-range entry with no cybersecurity keyword in its text. -/
def entryW : Entry := { published_parsed := some 5, title := "random".toList }

/-- The article the classifier builds from `entryW` under aggressive
filtering. -/
def articleW2 : Article :=
  { title := "random".toList, published_date := 5,
    skipped_reason := some SKIPPED_NOT_CYBER }

/-- A feed whose channel updated timestamp predates the start date while
its only entry is inside the range `[5, 10]`. -/
def feedGate : Feed :=
  { feed_updated_parsed := some 0, entries := [{ published_parsed := some 7 }] }

/-- A successfully processed feed task. -/
def taskOkW : FeedTask := ⟨"A".toList, "ua".toList, .ok ([articleW], [])⟩

/-- A feed task whose processing raised an exception. -/
def taskErrW : FeedTask := ⟨"B".toList, "ub".toList, .error "boom".toList⟩

/-! ## Theorems -/

theorem splitPlaced_fst_mem {l : List Article} {a : Article}
    (h : a ∈ (splitPlaced l).1) : a.skipped_reason = none ∧ a ∈ l := by
  induction l with
  | nil => simp [splitPlaced] at h
  | cons b rest ih =>
    by_cases hb : b.skipped_reason = none
    · simp only [splitPlaced, if_pos hb, List.mem_cons] at h
      rcases h with h | h
      · subst h; exact ⟨hb, List.mem_cons_self _ _⟩
      · exact ⟨(ih h).1, List.mem_cons_of_mem _ (ih h).2⟩
    · simp only [splitPlaced, if_neg hb] at h
      exact ⟨(ih h).1, List.mem_cons_of_mem _ (ih h).2⟩

theorem splitPlaced_snd_mem {l : List Article} {a : Article}
    (h : a ∈ (splitPlaced l).2) : a.skipped_reason ≠ none ∧ a ∈ l := by
  induction l with
  | nil => simp [splitPlaced] at h
  | cons b rest ih =>
    by_cases hb : b.skipped_reason = none
    · simp only [splitPlaced, if_pos hb] at h
      exact ⟨(ih h).1, List.mem_cons_of_mem _ (ih h).2⟩
    · simp only [splitPlaced, if_neg hb, List.mem_cons] at h
      rcases h with h | h
      · subst h; exact ⟨hb, List.mem_cons_self _ _⟩
      · exact ⟨(ih h).1, List.mem_cons_of_mem _ (ih h).2⟩

theorem splitPlaced_length (l : List Article) :
    (splitPlaced l).1.length + (splitPlaced l).2.length = l.length := by
  induction l with
  | nil => rfl
  | cons b rest ih =>
    by_cases hb : b.skipped_reason = none <;>
      simp [splitPlaced, hb] <;> omega

theorem cleanArticle_skipped_reason (m : Nat) (a : Article) :
    (cleanArticle m a).skipped_reason = none ↔ a.skipped_reason = none := by
  cases h : a.skipped_reason <;> simp [cleanArticle, h]

theorem cleanArticle_published_date (m : Nat) (a : Article) :
    (cleanArticle m a).published_date = a.published_date := rfl

theorem classify_entry_isSome (fu : List Char) (ci : Option (List Char)) (sd ed : Int)
    (ex ag : List (List Char)) (e : Entry) :
    (classify_entry fu ci sd ed ex ag e).isSome = isCandidate sd ed e := by
  unfold classify_entry isCandidate
  cases get_published_date e false 0 with
  | none => rfl
  | some p =>
    by_cases h : sd ≤ p ∧ p ≤ ed <;> simp [h]

theorem classify_entry_date {fu : List Char} {ci : Option (List Char)} {sd ed : Int}
    {ex ag : List (List Char)} {e : Entry} {a : Article}
    (h : classify_entry fu ci sd ed ex ag e = some a) :
    sd ≤ a.published_date ∧ a.published_date ≤ ed := by
  unfold classify_entry at h
  split at h
  · exact absurd h (by simp)
  · rename_i p hp
    split at h
    · rename_i hr
      rw [Option.some.injEq] at h
      subst h
      split
      · exact hr
      · split <;> exact hr
    · exact absurd h (by simp)

theorem length_filterMap_eq {α β : Type} (f : α → Option β) (l : List α) :
    (l.filterMap f).length = (l.filter (fun e => (f e).isSome)).length := by
  induction l with
  | nil => rfl
  | cons a rest ih =>
    cases h : f a <;>
      simp [List.filterMap_cons, List.filter_cons, h, ih]

theorem process_feed_entries_cases (feed : Feed) (fu : List Char) (sd ed : Int)
    (ex ag : List (List Char)) (m : Nat) :
    process_feed_entries feed fu sd ed ex ag m = ([], []) ∨
    process_feed_entries feed fu sd ed ex ag m =
      process_feed_entries_core feed fu sd ed ex ag m := by
  unfold process_feed_entries
  cases feed.feed_updated_parsed with
  | none => exact Or.inr rfl
  | some d =>
    by_cases hd : d < sd
    · exact Or.inl (by simp [hd])
    · exact Or.inr (by simp [hd])

theorem process_feed_entries_eq_core {feed : Feed} {fu : List Char} {sd ed : Int}
    {ex ag : List (List Char)} {m : Nat}
    (h : ∀ d, feed.feed_updated_parsed = some d → sd ≤ d) :
    process_feed_entries feed fu sd ed ex ag m =
      process_feed_entries_core feed fu sd ed ex ag m := by
  unfold process_feed_entries
  cases hf : feed.feed_updated_parsed with
  | none => rfl
  | some d => simp [Int.not_lt.mpr (h d hf)]

theorem core_fst_reason {feed : Feed} {fu : List Char} {sd ed : Int}
    {ex ag : List (List Char)} {m : Nat} {a : Article}
    (ha : a ∈ (process_feed_entries_core feed fu sd ed ex ag m).1) :
    a.skipped_reason = none := by
  unfold process_feed_entries_core clean_articles at ha
  rcases List.mem_map.1 ha with ⟨b, hb, rfl⟩
  exact (cleanArticle_skipped_reason m b).2 (splitPlaced_fst_mem hb).1

theorem core_snd_reason {feed : Feed} {fu : List Char} {sd ed : Int}
    {ex ag : List (List Char)} {m : Nat} {a : Article}
    (ha : a ∈ (process_feed_entries_core feed fu sd ed ex ag m).2) :
    a.skipped_reason ≠ none := by
  unfold process_feed_entries_core clean_articles at ha
  rcases List.mem_map.1 ha with ⟨b, hb, rfl⟩
  intro hcontra
  exact (splitPlaced_snd_mem hb).1 ((cleanArticle_skipped_reason m b).1 hcontra)

theorem core_length (feed : Feed) (fu : List Char) (sd ed : Int)
    (ex ag : List (List Char)) (m : Nat) :
    (process_feed_entries_core feed fu sd ed ex ag m).1.length +
      (process_feed_entries_core feed fu sd ed ex ag m).2.length =
      (feed.entries.filter (isCandidate sd ed)).length := by
  unfold process_feed_entries_core clean_articles
  simp only [List.length_map]
  rw [splitPlaced_length, length_filterMap_eq]
  simp only [classify_entry_isSome]

theorem core_fst_date {feed : Feed} {fu : List Char} {sd ed : Int}
    {ex ag : List (List Char)} {m : Nat} {a : Article}
    (ha : a ∈ (process_feed_entries_core feed fu sd ed ex ag m).1) :
    sd ≤ a.published_date ∧ a.published_date ≤ ed := by
  unfold process_feed_entries_core clean_articles at ha
  rcases List.mem_map.1 ha with ⟨b, hb, rfl⟩
  rw [cleanArticle_published_date]
  rcases List.mem_filterMap.1 (splitPlaced_fst_mem hb).2 with ⟨e, _, hce⟩
  exact classify_entry_date hce

/-- C1: every entry that reaches the classification step yields exactly one
article record landing in exactly one of the two output lists; an article
carries a skipped reason exactly when it is in the skipped list, and no
article lies in both lists. -/
theorem c1_partition (feed : Feed) (fu : List Char) (sd ed : Int)
    (ex ag : List (List Char)) (m : Nat) :
    (∀ a ∈ (process_feed_entries feed fu sd ed ex ag m).1, a.skipped_reason = none) ∧
    (∀ a ∈ (process_feed_entries feed fu sd ed ex ag m).2, a.skipped_reason ≠ none) ∧
    (∀ a ∈ (process_feed_entries feed fu sd ed ex ag m).1,
        a ∉ (process_feed_entries feed fu sd ed ex ag m).2) ∧
    ((∀ d, feed.feed_updated_parsed = some d → sd ≤ d) →
      (process_feed_entries feed fu sd ed ex ag m).1.length +
        (process_feed_entries feed fu sd ed ex ag m).2.length =
        (feed.entries.filter (isCandidate sd ed)).length) := by
  have hreason : (∀ a ∈ (process_feed_entries feed fu sd ed ex ag m).1, a.skipped_reason = none) ∧
      (∀ a ∈ (process_feed_entries feed fu sd ed ex ag m).2, a.skipped_reason ≠ none) := by
    rcases process_feed_entries_cases feed fu sd ed ex ag m with hc | hc <;> rw [hc]
    · simp
    · exact ⟨fun a ha => core_fst_reason ha, fun a ha => core_snd_reason ha⟩
  refine ⟨hreason.1, hreason.2, ?_, ?_⟩
  · intro a ha hmem
    exact hreason.2 a hmem (hreason.1 a ha)
  · intro hgate
    rw [process_feed_entries_eq_core hgate]
    exact core_length feed fu sd ed ex ag m

theorem c1_partition_witness :
    articleW.skipped_reason = none ∧
    articleW ∉ (process_feed_entries feedW [] 0 10 [] [] 200).2 ∧
    (process_feed_entries feedW [] 0 10 [] [] 200).1.length +
      (process_feed_entries feedW [] 0 10 [] [] 200).2.length =
      (feedW.entries.filter (isCandidate 0 10)).length :=
  ⟨(c1_partition feedW [] 0 10 [] [] 200).1 articleW (by decide),
   (c1_partition feedW [] 0 10 [] [] 200).2.2.1 articleW (by decide),
   (c1_partition feedW [] 0 10 [] [] 200).2.2.2 (fun d h => nomatch h)⟩

/-- C2: every accepted article's published date lies in
`[start_date, end_date]`, both bounds inclusive. -/
theorem c2_date_range (feed : Feed) (fu : List Char) (sd ed : Int)
    (ex ag : List (List Char)) (m : Nat) :
    ∀ a ∈ (process_feed_entries feed fu sd ed ex ag m).1,
      sd ≤ a.published_date ∧ a.published_date ≤ ed := by
  rcases process_feed_entries_cases feed fu sd ed ex ag m with hc | hc <;> rw [hc]
  · simp
  · exact fun a ha => core_fst_date ha

theorem c2_date_range_witness :
    0 ≤ articleW.published_date ∧ articleW.published_date ≤ 10 :=
  c2_date_range feedW [] 0 10 [] [] 200 articleW (by decide)

theorem matchesExcludeLoop_eq_find (excs : List (List Char × List (List Char)))
    (tl : List Char) (ks : List (List Char)) :
    matchesExcludeLoop excs tl ks =
      ks.find? (fun kw => listContains kw tl &&
        !((List.lookup kw excs).getD []).any (fun exc => listContains exc tl)) := by
  induction ks with
  | nil => rfl
  | cons kw rest ih =>
    unfold matchesExcludeLoop
    by_cases h1 : listContains kw tl = true
    · by_cases h2 : ((List.lookup kw excs).getD []).any (fun exc => listContains exc tl) = true
      · rw [if_pos h1, if_pos h2, ih, List.find?_cons]
        simp [h1, h2]
      · rw [if_pos h1, if_neg h2, List.find?_cons]
        simp only [Bool.not_eq_true] at h2
        simp [h1, h2]
    · rw [if_neg h1, ih, List.find?_cons]
      simp only [Bool.not_eq_true] at h1
      simp [h1]

/-- C3: the exclusion check returns the first exclude keyword occurring in
the lowercased text with none of its exception phrases present; a keyword
whose exception phrase occurs does not cause exclusion.  Concretely, with
keyword "sponsored" and exception "state-sponsored", a state-sponsored
headline is not excluded while a sponsored post is, citing "sponsored". -/
theorem c3_exclude_keywords :
    (∀ (text : List Char) (ks : List (List Char))
        (excs : List (List Char × List (List Char))),
      matches_exclude_keywords text ks excs =
        ks.find? (fun kw => listContains kw (lowerStr text) &&
          !((List.lookup kw excs).getD []).any
            (fun exc => listContains exc (lowerStr text)))) ∧
    matches_exclude_keywords "State-sponsored actors are targeting infrastructure".toList
      ["sponsored".toList] KEYWORD_EXCEPTIONS = none ∧
    matches_exclude_keywords "This is a sponsored post".toList
      ["sponsored".toList] KEYWORD_EXCEPTIONS = some "sponsored".toList := by
  refine ⟨?_, by decide, by decide⟩
  intro text ks excs
  exact matchesExcludeLoop_eq_find excs (lowerStr text) ks

theorem classify_entry_not_aggressive {fu : List Char} {ci : Option (List Char)}
    {sd ed : Int} {ex ag : List (List Char)} {e : Entry} {a : Article}
    (h : classify_entry fu ci sd ed ex ag e = some a)
    (hagg : matches_aggressive_keywords e.tags (combinedText e) ag = false) :
    a.skipped_reason = some SKIPPED_NOT_CYBER := by
  unfold classify_entry at h
  split at h
  · exact absurd h (by simp)
  · split at h
    · rw [Option.some.injEq] at h
      subst h
      simp [hagg]
    · exact absurd h (by simp)

/-- C4: the aggressive-inclusion check passes every entry when the
aggressive keyword set is empty; when non-empty it passes exactly the
entries containing some aggressive keyword case-insensitively in a tag
term or in the combined text, and an entry failing it is placed in the
skipped list with the not-cybersecurity reason. -/
theorem c4_aggressive_keywords :
    (∀ (tags : List (List Char)) (text : List Char),
        matches_aggressive_keywords tags text [] = true) ∧
    (∀ (tags : List (List Char)) (text : List Char) (ks : List (List Char)),
        ks ≠ [] →
        (matches_aggressive_keywords tags text ks = true ↔
          (∃ tag ∈ tags, ∃ kw ∈ ks,
              listContains (lowerStr kw) (lowerStr tag) = true) ∨
          (∃ kw ∈ ks, listContains (lowerStr kw) (lowerStr text) = true))) ∧
    (∀ (fu : List Char) (ci : Option (List Char)) (sd ed : Int)
        (ex ag : List (List Char)) (e : Entry) (a : Article),
        classify_entry fu ci sd ed ex ag e = some a →
        matches_aggressive_keywords e.tags (combinedText e) ag = false →
        a.skipped_reason = some SKIPPED_NOT_CYBER) := by
  refine ⟨?_, ?_, ?_⟩
  · intro tags text
    simp [matches_aggressive_keywords]
  · intro tags text ks hks
    simp only [matches_aggressive_keywords, if_neg hks]
    split_ifs with h1 h2 <;>
      simp_all [List.any_eq_true, List.mem_map]
  · intro fu ci sd ed ex ag e a h hagg
    exact classify_entry_not_aggressive h hagg

theorem c4_aggressive_keywords_witness :
    matches_aggressive_keywords [] "no relevant words here".toList ["security".toList] = false ∧
    matches_aggressive_keywords [] "no relevant words here".toList [] = true ∧
    articleW2.skipped_reason = some SKIPPED_NOT_CYBER := by
  refine ⟨?_, c4_aggressive_keywords.1 [] "no relevant words here".toList, ?_⟩
  · have h := c4_aggressive_keywords.2.1 [] "no relevant words here".toList
      ["security".toList] (by decide)
    cases hb : matches_aggressive_keywords [] "no relevant words here".toList
      ["security".toList]
    · rfl
    · exfalso
      rcases h.mp hb with hc | hc
      · rcases hc with ⟨tag, htag, -⟩
        exact absurd htag (by simp)
      · revert hc; decide
  · exact c4_aggressive_keywords.2.2 [] none 0 10 [] ["security".toList]
      entryW articleW2 (by decide) (by decide)

/-- C10: a channel-level updated timestamp earlier than the start date
makes the whole feed yield two empty lists, even for entries whose own
published dates are in range. -/
theorem c10_channel_gate (feed : Feed) (fu : List Char) (sd ed : Int)
    (ex ag : List (List Char)) (m : Nat) (d : Int)
    (h1 : feed.feed_updated_parsed = some d) (h2 : d < sd) :
    process_feed_entries feed fu sd ed ex ag m = ([], []) := by
  unfold process_feed_entries
  simp [h1, h2]

theorem c10_channel_gate_witness :
    process_feed_entries feedGate [] 5 10 [] [] 200 = ([], []) :=
  c10_channel_gate feedGate [] 5 10 [] [] 200 0 rfl (by decide)

theorem utf8Run_cons (st : Utf8State) (b : Nat) (rest : List Nat) :
    utf8Run st (b :: rest) = (utf8Feed st b).2 ++ utf8Run (utf8Feed st b).1 rest := rfl

theorem feed_start_eq (b : Nat) : utf8Feed .start b = utf8Dispatch b := rfl

theorem run_enc1 {c : Nat} (h : c < 0x80) (bs : List Nat) :
    utf8Run .start (c :: bs) = c :: utf8Run .start bs := by
  have hf : utf8Feed .start c = (.start, [c]) := by
    rw [feed_start_eq]
    unfold utf8Dispatch
    rw [if_pos h]
  rw [utf8Run_cons, hf]
  rfl

theorem run_enc2 {c : Nat} (h : 0x80 ≤ c ∧ c < 0x800) (bs : List Nat) :
    utf8Run .start ((0xC0 + c / 64) :: (0x80 + c % 64) :: bs) =
      c :: utf8Run .start bs := by
  have hd : utf8Feed .start (0xC0 + c / 64) = (.need1 (c / 64) 0x80 0xBF, []) := by
    rw [feed_start_eq]
    unfold utf8Dispatch
    split_ifs <;> (try (exfalso; omega))
    simp only [Prod.mk.injEq, Utf8State.need1.injEq, eq_self_iff_true, and_true, true_and]
    omega
  have hf : utf8Feed (.need1 (c / 64) 0x80 0xBF) (0x80 + c % 64) = (.start, [c]) := by
    simp only [utf8Feed]
    rw [if_pos (by omega : (0x80:Nat) ≤ 0x80 + c % 64 ∧ 0x80 + c % 64 ≤ 0xBF)]
    simp only [Prod.mk.injEq, List.cons.injEq, eq_self_iff_true, and_true, true_and]
    omega
  rw [utf8Run_cons, hd, List.nil_append, utf8Run_cons, hf]
  rfl

set_option maxHeartbeats 1000000 in
theorem dispatch_enc3 {c : Nat} (h : 0x800 ≤ c ∧ c < 0x10000)
    (h2 : ¬(0xD800 ≤ c ∧ c ≤ 0xDFFF)) :
    ∃ lo hi, utf8Feed .start (0xE0 + c / 4096) = (.need2 (c / 4096) lo hi, []) ∧
      (lo ≤ 0x80 + c / 64 % 64 ∧ 0x80 + c / 64 % 64 ≤ hi) := by
  by_cases hE0 : c < 0x1000
  · refine ⟨0xA0, 0xBF, ?_, by omega⟩
    rw [feed_start_eq]
    unfold utf8Dispatch
    split_ifs <;> (try (exfalso; omega))
    simp only [Prod.mk.injEq, Utf8State.need2.injEq, eq_self_iff_true, and_true, true_and]
    omega
  · by_cases hED : 0xD000 ≤ c ∧ c < 0xE000
    · refine ⟨0x80, 0x9F, ?_, by omega⟩
      rw [feed_start_eq]
      unfold utf8Dispatch
      split_ifs <;> (try (exfalso; omega))
      simp only [Prod.mk.injEq, Utf8State.need2.injEq, eq_self_iff_true, and_true, true_and]
      omega
    · refine ⟨0x80, 0xBF, ?_, by omega⟩
      rw [feed_start_eq]
      unfold utf8Dispatch
      split_ifs <;> (try (exfalso; omega))
      simp only [Prod.mk.injEq, Utf8State.need2.injEq, eq_self_iff_true, and_true, true_and]
      omega

set_option maxHeartbeats 1000000 in
theorem run_enc3 {c : Nat} (h : 0x800 ≤ c ∧ c < 0x10000)
    (h2 : ¬(0xD800 ≤ c ∧ c ≤ 0xDFFF)) (bs : List Nat) :
    utf8Run .start ((0xE0 + c / 4096) :: (0x80 + c / 64 % 64) :: (0x80 + c % 64) :: bs) =
      c :: utf8Run .start bs := by
  obtain ⟨lo, hi, hd, hr⟩ := dispatch_enc3 h h2
  have hf2 : utf8Feed (.need2 (c / 4096) lo hi) (0x80 + c / 64 % 64) =
      (.need1 (c / 4096 * 64 + c / 64 % 64) 0x80 0xBF, []) := by
    simp only [utf8Feed]
    rw [if_pos hr]
    simp only [Prod.mk.injEq, Utf8State.need1.injEq, eq_self_iff_true, and_true, true_and]
    omega
  have hf1 : utf8Feed (.need1 (c / 4096 * 64 + c / 64 % 64) 0x80 0xBF) (0x80 + c % 64) =
      (.start, [c]) := by
    simp only [utf8Feed]
    rw [if_pos (by omega : (0x80:Nat) ≤ 0x80 + c % 64 ∧ 0x80 + c % 64 ≤ 0xBF)]
    simp only [Prod.mk.injEq, List.cons.injEq, eq_self_iff_true, and_true, true_and]
    omega
  rw [utf8Run_cons, hd, List.nil_append, utf8Run_cons, hf2, List.nil_append,
    utf8Run_cons, hf1]
  rfl

set_option maxHeartbeats 1000000 in
theorem dispatch_enc4 {c : Nat} (h : 0x10000 ≤ c ∧ c < 0x110000) :
    ∃ lo hi, utf8Feed .start (0xF0 + c / 262144) = (.need3 (c / 262144) lo hi, []) ∧
      (lo ≤ 0x80 + c / 4096 % 64 ∧ 0x80 + c / 4096 % 64 ≤ hi) := by
  by_cases hF0 : c < 0x40000
  · refine ⟨0x90, 0xBF, ?_, by omega⟩
    rw [feed_start_eq]
    unfold utf8Dispatch
    split_ifs <;> (try (exfalso; omega))
    simp only [Prod.mk.injEq, Utf8State.need3.injEq, eq_self_iff_true, and_true, true_and]
    omega
  · by_cases hF4 : 0x100000 ≤ c
    · refine ⟨0x80, 0x8F, ?_, by omega⟩
      rw [feed_start_eq]
      unfold utf8Dispatch
      split_ifs <;> (try (exfalso; omega))
      simp only [Prod.mk.injEq, Utf8State.need3.injEq, eq_self_iff_true, and_true, true_and]
      omega
    · refine ⟨0x80, 0xBF, ?_, by omega⟩
      rw [feed_start_eq]
      unfold utf8Dispatch
      split_ifs <;> (try (exfalso; omega))
      simp only [Prod.mk.injEq, Utf8State.need3.injEq, eq_self_iff_true, and_true, true_and]
      omega

set_option maxHeartbeats 1000000 in
theorem run_enc4 {c : Nat} (h : 0x10000 ≤ c ∧ c < 0x110000) (bs : List Nat) :
    utf8Run .start ((0xF0 + c / 262144) :: (0x80 + c / 4096 % 64) ::
        (0x80 + c / 64 % 64) :: (0x80 + c % 64) :: bs) =
      c :: utf8Run .start bs := by
  obtain ⟨lo, hi, hd, hr⟩ := dispatch_enc4 h
  have hf3 : utf8Feed (.need3 (c / 262144) lo hi) (0x80 + c / 4096 % 64) =
      (.need2 (c / 262144 * 64 + c / 4096 % 64) 0x80 0xBF, []) := by
    simp only [utf8Feed]
    rw [if_pos hr]
    simp only [Prod.mk.injEq, Utf8State.need2.injEq, eq_self_iff_true, and_true, true_and]
    omega
  have hf2 : utf8Feed (.need2 (c / 262144 * 64 + c / 4096 % 64) 0x80 0xBF)
      (0x80 + c / 64 % 64) =
      (.need1 ((c / 262144 * 64 + c / 4096 % 64) * 64 + c / 64 % 64) 0x80 0xBF, []) := by
    simp only [utf8Feed]
    rw [if_pos (by omega : (0x80:Nat) ≤ 0x80 + c / 64 % 64 ∧ 0x80 + c / 64 % 64 ≤ 0xBF)]
    simp only [Prod.mk.injEq, Utf8State.need1.injEq, eq_self_iff_true, and_true, true_and]
    omega
  have hf1 : utf8Feed (.need1 ((c / 262144 * 64 + c / 4096 % 64) * 64 + c / 64 % 64)
      0x80 0xBF) (0x80 + c % 64) = (.start, [c]) := by
    simp only [utf8Feed]
    rw [if_pos (by omega : (0x80:Nat) ≤ 0x80 + c % 64 ∧ 0x80 + c % 64 ≤ 0xBF)]
    simp only [Prod.mk.injEq, List.cons.injEq, eq_self_iff_true, and_true, true_and]
    omega
  rw [utf8Run_cons, hd, List.nil_append, utf8Run_cons, hf3, List.nil_append,
    utf8Run_cons, hf2, List.nil_append, utf8Run_cons, hf1]
  rfl

theorem decode_encodeChar {c : Nat} (h1 : c < 0x110000)
    (h2 : ¬(0xD800 ≤ c ∧ c ≤ 0xDFFF)) (bs : List Nat) :
    utf8Run .start (utf8EncodeChar c ++ bs) = c :: utf8Run .start bs := by
  unfold utf8EncodeChar
  by_cases ha : c < 0x80
  · rw [if_pos ha]
    exact run_enc1 ha bs
  · rw [if_neg ha]
    by_cases hb : c < 0x800
    · rw [if_pos hb]
      exact run_enc2 ⟨by omega, hb⟩ bs
    · rw [if_neg hb]
      by_cases hc : c < 0x10000
      · rw [if_pos hc]
        exact run_enc3 ⟨by omega, hc⟩ h2 bs
      · rw [if_neg hc]
        exact run_enc4 ⟨by omega, h1⟩ bs

theorem decode_encode {s : List Nat}
    (h : ∀ c ∈ s, c < 0x110000 ∧ ¬(0xD800 ≤ c ∧ c ≤ 0xDFFF)) :
    utf8DecodeIgnore (utf8Encode s) = s := by
  induction s with
  | nil => rfl
  | cons c rest ih =>
    have hc := h c (List.mem_cons_self _ _)
    have hrest : utf8DecodeIgnore (utf8Encode rest) = rest :=
      ih (fun x hx => h x (List.mem_cons_of_mem _ hx))
    unfold utf8DecodeIgnore utf8Encode at hrest ⊢
    rw [List.map_cons, List.flatten_cons, decode_encodeChar hc.1 hc.2, hrest]



/-- Decoder state invariant: any code point the state can still emit is a
valid Unicode scalar value bound. -/
def StInv : Utf8State → Prop
  | .start => True
  | .need1 acc lo hi => 0x80 ≤ lo ∧ hi ≤ 0xBF ∧ acc * 64 + (hi - 0x80) < 0x110000
  | .need2 acc lo hi => 0x80 ≤ lo ∧ hi ≤ 0xBF ∧ (acc * 64 + (hi - 0x80)) * 64 + 63 < 0x110000
  | .need3 acc lo hi =>
    0x80 ≤ lo ∧ hi ≤ 0xBF ∧ ((acc * 64 + (hi - 0x80)) * 64 + 63) * 64 + 63 < 0x110000

theorem dispatch_inv (b : Nat) :
    StInv (utf8Dispatch b).1 ∧ ∀ x ∈ (utf8Dispatch b).2, x < 0x110000 := by
  unfold utf8Dispatch
  split_ifs <;> simp [StInv] <;> omega

theorem feed_inv (st : Utf8State) (b : Nat) (hst : StInv st) :
    StInv (utf8Feed st b).1 ∧ ∀ x ∈ (utf8Feed st b).2, x < 0x110000 := by
  cases st with
  | start => exact dispatch_inv b
  | need1 acc lo hi =>
    simp only [utf8Feed]
    split_ifs with hb
    · simp only [StInv] at hst ⊢
      simp
      omega
    · exact dispatch_inv b
  | need2 acc lo hi =>
    simp only [utf8Feed]
    split_ifs with hb
    · simp only [StInv] at hst ⊢
      simp
      omega
    · exact dispatch_inv b
  | need3 acc lo hi =>
    simp only [utf8Feed]
    split_ifs with hb
    · simp only [StInv] at hst ⊢
      simp
      omega
    · exact dispatch_inv b

theorem run_valid (bs : List Nat) : ∀ st, StInv st → ∀ x ∈ utf8Run st bs, x < 0x110000 := by
  induction bs with
  | nil => intro st _ x hx; simp [utf8Run] at hx
  | cons b rest ih =>
    intro st hst x hx
    rw [utf8Run_cons] at hx
    rcases List.mem_append.1 hx with hx | hx
    · exact (feed_inv st b hst).2 x hx
    · exact ih _ (feed_inv st b hst).1 x hx

theorem decode_valid (bs : List Nat) : ∀ x ∈ utf8DecodeIgnore bs, x < 0x110000 :=
  run_valid bs .start trivial



theorem mem_tabFix {x : Nat} {s : List Nat} (hx : x ∈ tabFix s) :
    x = 32 ∨ (x ∈ s ∧ x ≠ 9) := by
  rcases List.mem_map.1 hx with ⟨y, hy, rfl⟩
  by_cases h9 : y = 9
  · left; simp [h9]
  · right; simp [h9]; exact hy

theorem mem_ctrlStrip {x : Nat} {s : List Nat} (hx : x ∈ ctrlStrip s) :
    x ∈ s ∧ isCtrlChar x = false := by
  have h := List.mem_filter.1 hx
  exact ⟨h.1, by simpa using h.2⟩

theorem mem_illegalStrip {x : Nat} {s : List Nat} (hx : x ∈ illegalStrip s) :
    x ∈ s ∧ isIllegalXml x = false := by
  have h := List.mem_filter.1 hx
  exact ⟨h.1, by simpa using h.2⟩

theorem mem_ampFix {x : Nat} {s : List Nat} (hx : x ∈ ampFix s) :
    x ∈ s ∨ x = 97 ∨ x = 109 ∨ x = 112 ∨ x = 59 := by
  induction s with
  | nil => simp [ampFix] at hx
  | cons c rest ih =>
    unfold ampFix at hx
    split_ifs at hx with h38 hent
    · rcases List.mem_cons.1 hx with h | h
      · left; subst h38; exact h ▸ List.mem_cons_self _ _
      · rcases ih h with h | h
        · exact Or.inl (List.mem_cons_of_mem _ h)
        · exact Or.inr h
    · simp only [List.mem_cons] at hx
      rcases hx with rfl | rfl | rfl | rfl | rfl | h
      · left; subst h38; exact List.mem_cons_self _ _
      · right; tauto
      · right; tauto
      · right; tauto
      · right; tauto
      · rcases ih h with h | h
        · exact Or.inl (List.mem_cons_of_mem _ h)
        · exact Or.inr h
    · rcases List.mem_cons.1 hx with h | h
      · exact Or.inl (h ▸ List.mem_cons_self _ _)
      · rcases ih h with h | h
        · exact Or.inl (List.mem_cons_of_mem _ h)
        · exact Or.inr h

theorem mem_crlf1 {x : Nat} {s : List Nat} (hx : x ∈ crlf1 s) :
    x ∈ s ∨ x = 10 := by
  induction s using crlf1.induct with
  | case1 => simp [crlf1] at hx
  | case2 c => simp [crlf1] at hx; simp [hx]
  | case3 c d rest hcd ih =>
    rw [crlf1, if_pos hcd] at hx
    rcases List.mem_cons.1 hx with rfl | h
    · right; rfl
    · rcases ih h with h | h
      · exact Or.inl (List.mem_cons_of_mem _ (List.mem_cons_of_mem _ h))
      · exact Or.inr h
  | case4 c d rest hcd ih =>
    rw [crlf1, if_neg hcd] at hx
    rcases List.mem_cons.1 hx with rfl | h
    · exact Or.inl (List.mem_cons_self _ _)
    · rcases ih h with h | h
      · exact Or.inl (List.mem_cons_of_mem _ h)
      · exact Or.inr h

theorem mem_crlf2 {x : Nat} {s : List Nat} (hx : x ∈ crlf2 s) :
    x ≠ 13 ∧ (x ∈ s ∨ x = 10) := by
  rcases List.mem_map.1 hx with ⟨y, hy, rfl⟩
  by_cases h13 : y = 13
  · simp [h13]
  · simp [h13]; exact Or.inl hy



/-- After the ampersand rewrite every `&` is followed by a recognized
entity tail; this is the safety property the rewrite establishes. -/
def ampSafe : List Nat → Bool
  | [] => true
  | c :: rest => (if c = 38 then entityAt rest else true) && ampSafe rest

theorem byteStarts_ampFix {p s : List Nat} (hp : ∀ x ∈ p, x ≠ 38)
    (h : byteStarts p s = true) : byteStarts p (ampFix s) = true := by
  induction p generalizing s with
  | nil => rfl
  | cons a ps ih =>
    cases s with
    | nil => simp [byteStarts] at h
    | cons c cs =>
      simp only [byteStarts, Bool.and_eq_true, beq_iff_eq] at h ⊢
      have hc : c ≠ 38 := h.1 ▸ hp a (List.mem_cons_self _ _)
      rw [ampFix, if_neg hc]
      simp only [byteStarts, Bool.and_eq_true, beq_iff_eq]
      exact ⟨h.1, ih (fun x hx => hp x (List.mem_cons_of_mem _ hx)) h.2⟩

theorem entityAt_ampFix {s : List Nat} (h : entityAt s = true) :
    entityAt (ampFix s) = true := by
  unfold entityAt at h ⊢
  simp only [Bool.or_eq_true] at h ⊢
  rcases h with ((((h | h) | h) | h) | h)
  · exact Or.inl (Or.inl (Or.inl (Or.inl (byteStarts_ampFix (by decide) h))))
  · exact Or.inl (Or.inl (Or.inl (Or.inr (byteStarts_ampFix (by decide) h))))
  · exact Or.inl (Or.inl (Or.inr (byteStarts_ampFix (by decide) h)))
  · exact Or.inl (Or.inr (byteStarts_ampFix (by decide) h))
  · exact Or.inr (byteStarts_ampFix (by decide) h)

theorem ampSafe_ampFix (s : List Nat) : ampSafe (ampFix s) = true := by
  induction s with
  | nil => rfl
  | cons c rest ih =>
    by_cases h38 : c = 38
    · subst h38
      by_cases hent : entityAt rest = true
      · rw [ampFix, if_pos rfl, if_pos hent]
        simp only [ampSafe, if_pos rfl, Bool.and_eq_true]
        exact ⟨entityAt_ampFix hent, ih⟩
      · rw [ampFix, if_pos rfl, if_neg hent]
        simp [ampSafe, entityAt, byteStarts, ih]
    · rw [ampFix, if_neg h38]
      simp [ampSafe, h38, ih]

theorem ampFix_of_ampSafe {s : List Nat} (h : ampSafe s = true) : ampFix s = s := by
  induction s with
  | nil => rfl
  | cons c rest ih =>
    simp only [ampSafe, Bool.and_eq_true] at h
    by_cases h38 : c = 38
    · subst h38
      rw [if_pos rfl] at h
      rw [ampFix, if_pos rfl, if_pos h.1, ih h.2]
    · rw [ampFix, if_neg h38, ih h.2]

theorem byteStarts_crlf1 {p s : List Nat} (hp : ∀ x ∈ p, x ≠ 13)
    (h : byteStarts p s = true) : byteStarts p (crlf1 s) = true := by
  induction p generalizing s with
  | nil => rfl
  | cons a ps ih =>
    cases s with
    | nil => simp [byteStarts] at h
    | cons c cs =>
      simp only [byteStarts, Bool.and_eq_true, beq_iff_eq] at h
      have hc : c ≠ 13 := h.1 ▸ hp a (List.mem_cons_self _ _)
      cases cs with
      | nil =>
        have hps : ps = [] := by
          cases ps with
          | nil => rfl
          | cons b bs => simp [byteStarts] at h
        subst hps
        simp [crlf1, byteStarts, h.1]
      | cons d t =>
        rw [crlf1, if_neg (fun hh => hc hh.1)]
        simp only [byteStarts, Bool.and_eq_true, beq_iff_eq]
        exact ⟨h.1, ih (fun x hx => hp x (List.mem_cons_of_mem _ hx)) h.2⟩

theorem entityAt_crlf1 {s : List Nat} (h : entityAt s = true) :
    entityAt (crlf1 s) = true := by
  unfold entityAt at h ⊢
  simp only [Bool.or_eq_true] at h ⊢
  rcases h with ((((h | h) | h) | h) | h)
  · exact Or.inl (Or.inl (Or.inl (Or.inl (byteStarts_crlf1 (by decide) h))))
  · exact Or.inl (Or.inl (Or.inl (Or.inr (byteStarts_crlf1 (by decide) h))))
  · exact Or.inl (Or.inl (Or.inr (byteStarts_crlf1 (by decide) h)))
  · exact Or.inl (Or.inr (byteStarts_crlf1 (by decide) h))
  · exact Or.inr (byteStarts_crlf1 (by decide) h)

theorem ampSafe_crlf1 {s : List Nat} (h : ampSafe s = true) :
    ampSafe (crlf1 s) = true := by
  induction s using crlf1.induct with
  | case1 => rfl
  | case2 c => rw [crlf1]; exact h
  | case3 c d rest hcd ih =>
    obtain ⟨rfl, rfl⟩ := hcd
    simp only [ampSafe, Bool.and_eq_true] at h
    rw [crlf1, if_pos ⟨rfl, rfl⟩]
    simp only [ampSafe, Bool.and_eq_true]
    exact ⟨by simp, ih h.2.2⟩
  | case4 c d rest hcd ih =>
    simp only [ampSafe, Bool.and_eq_true] at h
    rw [crlf1, if_neg hcd]
    simp only [ampSafe, Bool.and_eq_true]
    have htail : ampSafe (crlf1 (d :: rest)) = true := by
      apply ih
      simp only [ampSafe, Bool.and_eq_true]
      exact h.2
    refine ⟨?_, htail⟩
    by_cases h38 : c = 38
    · subst h38
      rw [if_pos rfl] at h ⊢
      exact entityAt_crlf1 h.1
    · rw [if_neg h38]

theorem byteStarts_crlf2 {p s : List Nat} (hp : ∀ x ∈ p, x ≠ 13)
    (h : byteStarts p s = true) : byteStarts p (crlf2 s) = true := by
  induction p generalizing s with
  | nil => rfl
  | cons a ps ih =>
    cases s with
    | nil => simp [byteStarts] at h
    | cons c cs =>
      simp only [byteStarts, Bool.and_eq_true, beq_iff_eq] at h
      have hc : c ≠ 13 := h.1 ▸ hp a (List.mem_cons_self _ _)
      simp only [crlf2, List.map_cons, if_neg hc, byteStarts, Bool.and_eq_true, beq_iff_eq]
      exact ⟨h.1, ih (fun x hx => hp x (List.mem_cons_of_mem _ hx)) h.2⟩

theorem entityAt_crlf2 {s : List Nat} (h : entityAt s = true) :
    entityAt (crlf2 s) = true := by
  unfold entityAt at h ⊢
  simp only [Bool.or_eq_true] at h ⊢
  rcases h with ((((h | h) | h) | h) | h)
  · exact Or.inl (Or.inl (Or.inl (Or.inl (byteStarts_crlf2 (by decide) h))))
  · exact Or.inl (Or.inl (Or.inl (Or.inr (byteStarts_crlf2 (by decide) h))))
  · exact Or.inl (Or.inl (Or.inr (byteStarts_crlf2 (by decide) h)))
  · exact Or.inl (Or.inr (byteStarts_crlf2 (by decide) h))
  · exact Or.inr (byteStarts_crlf2 (by decide) h)

theorem ampSafe_crlf2 {s : List Nat} (h : ampSafe s = true) :
    ampSafe (crlf2 s) = true := by
  induction s with
  | nil => rfl
  | cons c rest ih =>
    simp only [ampSafe, Bool.and_eq_true] at h
    simp only [crlf2, List.map_cons, ampSafe, Bool.and_eq_true]
    refine ⟨?_, ih h.2⟩
    by_cases h38 : c = 38
    · subst h38
      rw [if_pos rfl] at h
      exact entityAt_crlf2 h.1
    · by_cases h13 : c = 13
      · subst h13
        rfl
      · simp only [if_neg h13, if_neg h38]



theorem tabFix_id {s : List Nat} (h : ∀ x ∈ s, x ≠ 9) : tabFix s = s := by
  induction s with
  | nil => rfl
  | cons c rest ih =>
    simp only [tabFix, List.map_cons, if_neg (h c (List.mem_cons_self _ _))]
    rw [List.cons.injEq]
    exact ⟨rfl, ih (fun x hx => h x (List.mem_cons_of_mem _ hx))⟩

theorem ctrlStrip_id {s : List Nat} (h : ∀ x ∈ s, isCtrlChar x = false) :
    ctrlStrip s = s := by
  unfold ctrlStrip
  rw [List.filter_eq_self]
  intro x hx
  simp [h x hx]

theorem illegalStrip_id {s : List Nat} (h : ∀ x ∈ s, isIllegalXml x = false) :
    illegalStrip s = s := by
  unfold illegalStrip
  rw [List.filter_eq_self]
  intro x hx
  simp [h x hx]

theorem crlf1_id {s : List Nat} (h : ∀ x ∈ s, x ≠ 13) : crlf1 s = s := by
  induction s using crlf1.induct with
  | case1 => rfl
  | case2 c => rfl
  | case3 c d rest hcd ih =>
    exact absurd hcd.1 (h c (List.mem_cons_self _ _))
  | case4 c d rest hcd ih =>
    rw [crlf1, if_neg hcd, List.cons.injEq]
    exact ⟨rfl, ih (fun x hx => h x (List.mem_cons_of_mem _ hx))⟩

theorem crlf2_id {s : List Nat} (h : ∀ x ∈ s, x ≠ 13) : crlf2 s = s := by
  induction s with
  | nil => rfl
  | cons c rest ih =>
    simp only [crlf2, List.map_cons, if_neg (h c (List.mem_cons_self _ _))]
    rw [List.cons.injEq]
    exact ⟨rfl, ih (fun x hx => h x (List.mem_cons_of_mem _ hx))⟩

/-- The cleaned code point sequence of `clean_feed_content` before
re-encoding. -/
def cleanPasses (s : List Nat) : List Nat :=
  crlf2 (crlf1 (ampFix (illegalStrip (ctrlStrip (tabFix s)))))

theorem cleanPasses_mem {s : List Nat} (h0 : ∀ x ∈ s, x < 0x110000) :
    ∀ x ∈ cleanPasses s,
      x < 0x110000 ∧ x ≠ 9 ∧ isCtrlChar x = false ∧ isIllegalXml x = false ∧ x ≠ 13 := by
  intro x hx
  unfold cleanPasses at hx
  obtain ⟨hx13, hx⟩ := mem_crlf2 hx
  refine ⟨?_, ?_, ?_, ?_, hx13⟩ <;> {
    rcases hx with hx | rfl
    case inr => decide
    rcases mem_crlf1 hx with hx | rfl
    case inr => decide
    rcases mem_ampFix hx with hx | hx
    case inr => rcases hx with rfl | rfl | rfl | rfl <;> decide
    obtain ⟨hx, hxill⟩ := mem_illegalStrip hx
    obtain ⟨hx, hxctrl⟩ := mem_ctrlStrip hx
    rcases mem_tabFix hx with rfl | ⟨hx, hx9⟩
    case inl => decide
    first
      | exact h0 x hx
      | exact hx9
      | exact hxctrl
      | exact hxill
  }

theorem cleanPasses_ampSafe (s : List Nat) : ampSafe (cleanPasses s) = true :=
  ampSafe_crlf2 (ampSafe_crlf1 (ampSafe_ampFix _))

theorem cleanPasses_id {s : List Nat}
    (h : ∀ x ∈ s, x ≠ 9 ∧ isCtrlChar x = false ∧ isIllegalXml x = false ∧ x ≠ 13)
    (hamp : ampSafe s = true) : cleanPasses s = s := by
  unfold cleanPasses
  rw [tabFix_id (fun x hx => (h x hx).1),
    ctrlStrip_id (fun x hx => (h x hx).2.1),
    illegalStrip_id (fun x hx => (h x hx).2.2.1),
    ampFix_of_ampSafe hamp,
    crlf1_id (fun x hx => (h x hx).2.2.2),
    crlf2_id (fun x hx => (h x hx).2.2.2)]

/-- C5: the content repair `clean_feed_content` is idempotent on every
byte input. -/
theorem c5_repair_idempotent (x : List Nat) :
    clean_feed_content (clean_feed_content x) = clean_feed_content x := by
  show utf8Encode (cleanPasses (utf8DecodeIgnore (utf8Encode (cleanPasses (utf8DecodeIgnore x))))) =
    utf8Encode (cleanPasses (utf8DecodeIgnore x))
  have hmem := cleanPasses_mem (decode_valid x)
  have hdec : utf8DecodeIgnore (utf8Encode (cleanPasses (utf8DecodeIgnore x))) =
      cleanPasses (utf8DecodeIgnore x) := by
    apply decode_encode
    intro c hc
    obtain ⟨hv, _, _, hill, _⟩ := hmem c hc
    refine ⟨hv, ?_⟩
    intro hsur
    simp [isIllegalXml] at hill
    omega
  rw [hdec]
  rw [cleanPasses_id (fun c hc => ⟨(hmem c hc).2.1, (hmem c hc).2.2.1,
    (hmem c hc).2.2.2.1, (hmem c hc).2.2.2.2⟩) (cleanPasses_ampSafe _)]

/-- C6 counterexample: in `fetch_articles_async` the bytes handed to the
parser are not the raw bytes even on inputs a parser accepts - the
ampersand byte is rewritten before the first and only parse attempt, so
repair is not invoked only after a parse attempt signals malformed
input. -/
theorem c6_counterexample : fetch_articles_async_parse_input [38] ≠ [38] := by decide

/-- C6 (amended): `fetch_articles_async` applies `clean_feed_content`
unconditionally before its single parse attempt, and it can rewrite the
bytes of a fetch whose parse succeeds; only `fetch_articles_sync_fallback`
parses first and repairs only when the parse signals malformed input, in
which case the re-fetched bytes are cleaned and re-parsed. -/
theorem c6_repair_invocation :
    (∀ content, fetch_articles_async_parse_input content = clean_feed_content content) ∧
    fetch_articles_async_parse_input [9] ≠ [9] ∧
    (∀ (bozo : List Nat → Bool) (raw : List Nat), bozo raw = false →
      try_parse_feed_parse_input bozo raw = raw) ∧
    (∀ (bozo : List Nat → Bool) (raw : List Nat), bozo raw = true →
      try_parse_feed_parse_input bozo raw = clean_feed_content raw) := by
  refine ⟨fun _ => rfl, by decide, ?_, ?_⟩
  · intro bozo raw h
    unfold try_parse_feed_parse_input
    rw [h]
    simp
  · intro bozo raw h
    unfold try_parse_feed_parse_input
    rw [h]
    simp

theorem c6_repair_invocation_witness :
    try_parse_feed_parse_input (fun _ => false) [60, 97, 62] = [60, 97, 62] :=
  c6_repair_invocation.2.2.1 (fun _ => false) [60, 97, 62] rfl

/-- C7: every feed whose processing raises contributes exactly one error
record and zero articles, sibling feeds still contribute their own
articles, and the total run is the concatenation of the per-feed
results plus the error list. -/
theorem c7_error_isolation (tasks : List FeedTask) :
    (process_all_feeds tasks).1 = tasks.flatMap (fun t =>
        match t.result with
        | .ok (recent, _) => recent.map (set_feed_fields t.feedtitle t.feed_url)
        | .error _ => []) ∧
    (process_all_feeds tasks).2.1 = tasks.flatMap (fun t =>
        match t.result with
        | .ok (_, skipped) => skipped.map (set_feed_fields t.feedtitle t.feed_url)
        | .error _ => []) ∧
    (process_all_feeds tasks).2.2 = tasks.filterMap (fun t =>
        match t.result with
        | .error e => some (t.feedtitle, t.feed_url, e)
        | .ok _ => none) ∧
    (∀ t ∈ tasks, ∀ e, t.result = .error e →
        (t.feedtitle, t.feed_url, e) ∈ (process_all_feeds tasks).2.2) := by
  have hmain : ∀ ts : List FeedTask,
      (process_all_feeds ts).1 = ts.flatMap (fun t =>
          match t.result with
          | .ok (recent, _) => recent.map (set_feed_fields t.feedtitle t.feed_url)
          | .error _ => []) ∧
      (process_all_feeds ts).2.1 = ts.flatMap (fun t =>
          match t.result with
          | .ok (_, skipped) => skipped.map (set_feed_fields t.feedtitle t.feed_url)
          | .error _ => []) ∧
      (process_all_feeds ts).2.2 = ts.filterMap (fun t =>
          match t.result with
          | .error e => some (t.feedtitle, t.feed_url, e)
          | .ok _ => none) := by
    intro ts
    induction ts with
    | nil => exact ⟨rfl, rfl, rfl⟩
    | cons t rest ih =>
      unfold process_all_feeds at ih ⊢
      rw [List.map_cons]
      cases hres : t.result with
      | ok p =>
        obtain ⟨recent, skipped⟩ := p
        have hpf : process_feed_async t.feedtitle t.feed_url (Except.ok (recent, skipped)) =
            (recent.map (set_feed_fields t.feedtitle t.feed_url),
             skipped.map (set_feed_fields t.feedtitle t.feed_url), none) := rfl
        rw [hpf]
        simp only [collectResults, List.flatMap_cons, List.filterMap_cons, hres]
        exact ⟨by rw [ih.1], by rw [ih.2.1], by rw [ih.2.2]⟩
      | error e =>
        have hpf : process_feed_async t.feedtitle t.feed_url (Except.error e) =
            ([], [], some (t.feedtitle, t.feed_url, e)) := rfl
        rw [hpf]
        simp only [collectResults, List.flatMap_cons, List.filterMap_cons, hres,
          List.nil_append]
        exact ⟨by rw [ih.1], by rw [ih.2.1], by rw [ih.2.2]⟩
  refine ⟨(hmain tasks).1, (hmain tasks).2.1, (hmain tasks).2.2, ?_⟩
  intro t ht e he
  rw [(hmain tasks).2.2]
  exact List.mem_filterMap.2 ⟨t, ht, by rw [he]⟩

theorem c7_error_isolation_witness :
    ("B".toList, "ub".toList, "boom".toList) ∈
      (process_all_feeds [taskOkW, taskErrW]).2.2 :=
  (c7_error_isolation [taskOkW, taskErrW]).2.2.2 taskErrW (by decide)
    "boom".toList (by decide)

/-- C8: a fetch ending in a transport exception returns the cached body
as a degraded success with the from-cache flag whenever a cache entry
exists, regardless of freshness, and propagates a retrieval error only
when no entry exists. -/
theorem c8_cache_fallback (opts : RetrieverOptions) (cache : Option CacheEntry)
    (now maxAge : Int) :
    (∀ e, cache = some e → fetch opts cache now maxAge .exc = .ok (e.body, true)) ∧
    (cache = none → fetch opts cache now maxAge .exc = .error ()) := by
  constructor
  · intro e he
    subst he
    simp only [fetch]
    split_ifs <;> rfl
  · intro he
    subst he
    rfl

theorem c8_cache_fallback_witness :
    fetch ⟨false, true⟩ (some ⟨[1, 2], 0⟩) 10000 600 .exc = .ok ([1, 2], true) ∧
    fetch ⟨false, true⟩ none 10000 600 .exc = .error () :=
  ⟨(c8_cache_fallback ⟨false, true⟩ (some ⟨[1, 2], 0⟩) 10000 600).1 ⟨[1, 2], 0⟩ rfl,
   (c8_cache_fallback ⟨false, true⟩ none 10000 600).2 rfl⟩

/-- C9: in every reachable scheduler state at most `n` tasks run
concurrently, and the configurable ceiling defaults to
`MAX_CONCURRENT_TASKS = 15`. -/
theorem c9_concurrency_bound :
    (∀ (n total : Nat) (s : SchedState), SchedReach n total s → s.running ≤ n) ∧
    default_max_concurrent = 15 := by
  constructor
  · intro n total s h
    induction h with
    | init => exact Nat.zero_le n
    | step s t hs hstep ih =>
      cases hstep with
      | acquire hw hr => exact hr
      | release hr => dsimp only; omega
  · rfl

theorem c9_concurrency_bound_witness :
    (⟨2, 1, 0⟩ : SchedState).running ≤ default_max_concurrent :=
  c9_concurrency_bound.1 default_max_concurrent 3 ⟨2, 1, 0⟩
    (SchedReach.step _ _ SchedReach.init
      (SchedStep.acquire ⟨3, 0, 0⟩ (by decide) (by decide)))

end CyberFeedBites
